import Mathlib

/-!
# Verification of `scripts/sync_rulesets.py`

A shallow embedding of the ruleset-reconciliation script.  The remote HTTP
service (GitHub API) is modelled as an oracle `Remote` mapping a URL to a
response; exceptions of the Python code become `Except SyncError`; the
unbounded `while url:` pagination loop takes an explicit fuel argument
(`SyncError.outOfFuel` stands for a non-terminating chain of continuation
links, which would make the Python program loop forever).  Python strings are
Lean `String`s; `str.strip`, `str.splitlines`, `str.split(",")`,
`str.isspace`, `urllib.parse.quote` are re-implemented below over the ASCII
character range used by the script.
-/

set_option autoImplicit false

namespace SyncRulesets

/-- A JSON value as produced by `json.loads`.  Python dicts are modelled as
association lists looked up by first match. -/
inductive Json where
  | null
  | bool (b : Bool)
  | num (n : Int)
  | str (s : String)
  | arr (items : List Json)
  | obj (fields : List (String × Json))

/-- Outcome of one HTTP request, as observed by `_request_json`
(`urllib.request.urlopen` + `json.loads`):
a decoded body with response headers, an `urllib.error.HTTPError`
with a status code (wrapped by the script into `GitHubApiError`), or any
other failure (network error, undecodable body), which the script does not
catch. -/
inductive RemoteResult where
  | success (body : Json) (headers : List (String × String))
  | httpError (status : Nat) (body : String)
  | netFailure

/-- The remote service: a pure oracle from URL to response.  The script is
single-threaded and performs one call at a time, so a run observes a fixed
response per URL. -/
structure Remote where
  fetch : String → RemoteResult

/-- The exceptions the script can raise while validating entries:
`GitHubApiError` re-raised from `repo_exists` (status ≠ 404), an uncaught
transport/decoding failure, the `RuntimeError("Expected list response ...")`
of `_paginate`, the `AttributeError` of `item.get` on a non-dict page item,
and the fuel marker for a never-ending pagination chain. -/
inductive SyncError where
  | apiError (status : Nat) (url : String) (body : String)
  | netError
  | listExpected (url : String)
  | attrError
  | outOfFuel
  deriving DecidableEq

/-! ## Python string primitives -/

/-- Whitespace as recognised by `str.strip()` / `str.isspace()` on the ASCII
range (space, tab, newline, carriage return, vertical tab, form feed). -/
def pyIsSpace (c : Char) : Bool :=
  c == ' ' || c == '\t' || c == '\n' || c == '\r' || c == '\x0b' || c == '\x0c'

/-- `str.strip()`: drop leading and trailing whitespace. -/
def pyStrip (s : String) : String :=
  String.mk (((s.toList.dropWhile pyIsSpace).reverse.dropWhile pyIsSpace).reverse)

/-- `a == b` on the first characters: `pat` is a leading piece of `l`. -/
def isPrefixChars : List Char → List Char → Bool
  | [], _ => true
  | _ :: _, [] => false
  | a :: as, b :: bs => a == b && isPrefixChars as bs

/-- `pat in s` (substring containment) over characters. -/
def containsChars (pat : List Char) : List Char → Bool
  | [] => pat.isEmpty
  | c :: rest => isPrefixChars pat (c :: rest) || containsChars pat rest

/-- Python `s.startswith(pat)`. -/
def strStartsWith (s pat : String) : Bool := isPrefixChars pat.toList s.toList

/-- Python `pat in s`. -/
def strContains (s pat : String) : Bool := containsChars pat.toList s.toList

/-- Worker for `str.splitlines()`: split on `\n`, `\r\n` and `\r`; a trailing
line terminator does not produce an extra empty line. -/
def splitlinesGo : List Char → List Char → List String
  | [], acc => if acc.isEmpty then [] else [String.mk acc.reverse]
  | '\r' :: '\n' :: rest, acc => String.mk acc.reverse :: splitlinesGo rest []
  | '\r' :: rest, acc => String.mk acc.reverse :: splitlinesGo rest []
  | '\n' :: rest, acc => String.mk acc.reverse :: splitlinesGo rest []
  | c :: rest, acc => splitlinesGo rest (c :: acc)

/-- Python `str.splitlines()` (restricted to the `\n`/`\r` terminators the
script's files use). -/
def pySplitlines (s : String) : List String := splitlinesGo s.toList []

/-- Worker for `str.split(",")`. -/
def splitCommaGo : List Char → List Char → List String
  | [], acc => [String.mk acc.reverse]
  | c :: rest, acc =>
    if c = ',' then String.mk acc.reverse :: splitCommaGo rest []
    else splitCommaGo rest (c :: acc)

/-- Python `s.split(",")`. -/
def splitComma (s : String) : List String := splitCommaGo s.toList []

/-- Python `sep.join(parts)`. -/
def joinSep (sep : String) : List String → String
  | [] => ""
  | [x] => x
  | x :: rest => x ++ sep ++ joinSep sep rest

/-- ASCII `str.lower`, as applied to response header names. -/
def asciiLower (c : Char) : Char :=
  if 'A' ≤ c ∧ c ≤ 'Z' then Char.ofNat (c.toNat + 32) else c

/-- Python `s.lower()` on the ASCII range. -/
def strLower (s : String) : String := String.mk (s.toList.map asciiLower)

/-- Uppercase hexadecimal digit, as used by `urllib.parse.quote`. -/
def hexDigit (n : Nat) : Char :=
  if n < 10 then Char.ofNat (48 + n) else Char.ofNat (55 + n)

/-- UTF-8 encoding of one code point, as a list of byte values. -/
def utf8Bytes (n : Nat) : List Nat :=
  if n < 0x80 then [n]
  else if n < 0x800 then [0xC0 + n / 64, 0x80 + n % 64]
  else if n < 0x10000 then [0xE0 + n / 4096, 0x80 + (n / 64) % 64, 0x80 + n % 64]
  else [0xF0 + n / 262144, 0x80 + (n / 4096) % 64, 0x80 + (n / 64) % 64, 0x80 + n % 64]

/-- `urllib.parse.quote` on one character (default `safe='/'`): letters,
digits, `_.-~` and `/` pass through, everything else is percent-encoded. -/
def pyQuoteChar (c : Char) : String :=
  if c.isAlpha || c.isDigit || c == '_' || c == '.' || c == '-' || c == '~' || c == '/' then
    String.mk [c]
  else
    String.mk ((utf8Bytes c.toNat).foldr
      (fun b acc => '%' :: hexDigit (b / 16) :: hexDigit (b % 16) :: acc) [])

/-- `urllib.parse.quote(s)` with the default `safe='/'`. -/
def pyQuote (s : String) : String :=
  s.toList.foldl (fun acc c => acc ++ pyQuoteChar c) ""

/-! ## Constants of the script -/

def ORG : String := "CursorCult"

def API_BASE : String := "https://api.github.com"

def TAG_REQUIRED : String := "v1"

/-! (`TAG_RE` is defined by the script but never used; it is omitted.) -/

/-! ## The remote layer -/

/-- Python dict lookup `fields.get(key)` on a decoded JSON object. -/
def jsonGet (fields : List (String × Json)) (key : String) : Option Json :=
  match fields.find? (fun kv => kv.1 == key) with
  | some kv => some kv.2
  | none => none

/-- Lookup in the lower-cased header dict, `headers.get(key, "")`. -/
def headerGet (headers : List (String × String)) (key : String) : String :=
  match headers.find? (fun kv => kv.1 == key) with
  | some kv => kv.2
  | none => ""

/-- `_request_json(url, token)`: returns the decoded body together with the
lower-cased headers, raises `GitHubApiError` for an `HTTPError`, and lets any
other failure propagate.  (The bearer token only affects which response the
oracle returns, so it is folded into `Remote`.) -/
def requestJson (remote : Remote) (url : String) :
    Except SyncError (Json × List (String × String)) :=
  match remote.fetch url with
  | .success body headers => .ok (body, headers.map (fun kv => (strLower kv.1, kv.2)))
  | .httpError status body => .error (.apiError status url body)
  | .netFailure => .error .netError

/-- `re.search(r"<([^>]+)>", part)`, group 1: the text between the first `<`
and the first following `>`, provided it is non-empty. -/
def extractAngle : List Char → Option String
  | [] => none
  | '<' :: rest =>
    let seg := rest.takeWhile (fun c => c != '>')
    if seg.isEmpty then extractAngle rest
    else if (rest.drop seg.length).isEmpty then none
    else some (String.mk seg)
  | _ :: rest => extractAngle rest

/-- The literal `rel="next"` searched for in each `Link` header part. -/
def relNextMarker : String := "rel=\"next\""

/-- The `for part in link.split(","):` loop of `_paginate`: the first
non-empty stripped part containing `rel="next"` decides the next URL (the
loop `break`s there), extracted with `extractAngle`; otherwise there is no
next page. -/
def parseNextLoop : List String → Option String
  | [] => none
  | part :: rest =>
    let p := pyStrip part
    if p = "" then parseNextLoop rest
    else if strContains p relNextMarker then extractAngle p.toList
    else parseNextLoop rest

/-- Continuation-pointer extraction from the `link` header of one page. -/
def parseNextUrl (link : String) : Option String := parseNextLoop (splitComma link)

/-! ## The remote validator -/

/-- URL of the repository metadata endpoint used by `repo_exists`. -/
def repoMetaUrl (repo : String) : String :=
  API_BASE ++ "/repos/" ++ pyQuote ORG ++ "/" ++ pyQuote repo

/-- URL of the first tag-listing page used by `repo_has_required_tag`. -/
def repoTagsUrl (repo : String) : String :=
  API_BASE ++ "/repos/" ++ pyQuote ORG ++ "/" ++ pyQuote repo ++ "/tags?per_page=100"

/-- `repo_exists(repo, token)`: a 404 from the metadata endpoint is `False`;
any other `GitHubApiError` (or uncaught failure) propagates; a decoded body
that is not a dict is `False`; `archived`/`fork` equal to JSON `true`
is `False`; otherwise `True`. -/
def repo_exists (remote : Remote) (repo : String) : Except SyncError Bool :=
  match requestJson remote (repoMetaUrl repo) with
  | .error e =>
    match e with
    | .apiError status url body =>
      if status = 404 then .ok false else .error (.apiError status url body)
    | other => .error other
  | .ok (data, _) =>
    match data with
    | .obj fields =>
      match jsonGet fields "archived" with
      | some (.bool true) => .ok false
      | _ =>
        match jsonGet fields "fork" with
        | some (.bool true) => .ok false
        | _ => .ok true
    | _ => .ok false

/-- The scan of one page's items by `repo_has_required_tag`: return `True`
at the first item whose `name` is a string equal, after stripping, to
`TAG_REQUIRED`; skip items without a string `name`; `item.get` on a
non-dict item raises `AttributeError`. -/
def scanItems : List Json → Except SyncError Bool
  | [] => .ok false
  | item :: rest =>
    match item with
    | .obj fields =>
      match jsonGet fields "name" with
      | some (.str name) =>
        if pyStrip name = TAG_REQUIRED then .ok true else scanItems rest
      | _ => scanItems rest
    | _ => .error .attrError

/-- The fused `_paginate` / `repo_has_required_tag` loop: while the URL is
truthy, fetch the page (failures propagate), require a list body
(`RuntimeError` otherwise), scan its items — a match ends the scan without
touching the link header or fetching further pages — and otherwise follow
the `rel="next"` pointer of the `link` header; no pointer ends the scan
with `False`.  `fuel` bounds the number of page fetches. -/
def tagScan (remote : Remote) : Nat → Option String → Except SyncError Bool
  | _, none => .ok false
  | fuel, some url =>
    if url = "" then .ok false
    else
      match fuel with
      | 0 => .error .outOfFuel
      | fuel + 1 =>
        match requestJson remote url with
        | .error e => .error e
        | .ok (.arr items, headers) =>
          match scanItems items with
          | .error e => .error e
          | .ok true => .ok true
          | .ok false => tagScan remote fuel (parseNextUrl (headerGet headers "link"))
        | .ok (_, _) => .error (.listExpected url)

/-- `repo_has_required_tag(repo, token)`. -/
def repo_has_required_tag (remote : Remote) (fuel : Nat) (repo : String) :
    Except SyncError Bool :=
  tagScan remote fuel (some (repoTagsUrl repo))

/-! ## The entry normalizer -/

/-- `normalize_rule_name(raw)`: strip; reject empty and comment lines, lines
with any (remaining) whitespace, and names starting with `.` or `_`. -/
def normalize_rule_name (raw : String) : Option String :=
  let s := pyStrip raw
  if (s == "") || strStartsWith s "#" then none
  else if s.toList.any pyIsSpace then none
  else if strStartsWith s "." || strStartsWith s "_" then none
  else some s

/-- The loop of `read_ruleset_file`: normalize each line in order, skip
rejected lines and names already seen, append first occurrences. -/
def normalizeLines : List String → List String → List String
  | [], _ => []
  | line :: rest, seen =>
    match normalize_rule_name line with
    | none => normalizeLines rest seen
    | some name =>
      if name ∈ seen then normalizeLines rest seen
      else name :: normalizeLines rest (name :: seen)

/-- `read_ruleset_file(path)` over the file's text: the normalized rule
names together with the `dropped` list, which the script never fills. -/
def read_ruleset_file (content : String) : List String × List String :=
  (normalizeLines (pySplitlines content) [], [])

/-- The serialized form produced by `write_ruleset_file` (and recomputed
inline by `sync_ruleset`): rules joined by `"\n"`, plus one trailing newline
when the list is non-empty. -/
def write_ruleset_content (rules : List String) : String :=
  joinSep "\n" rules ++ (if rules.isEmpty then "" else "\n")

/-! ## The reconciler -/

/-- The validation loop of `sync_ruleset` (lines 142–149): entries failing
`repo_exists` or `repo_has_required_tag` go to `removed`, the rest to
`kept`, in input order; a raised error aborts the whole loop. -/
def syncLoop (remote : Remote) (fuel : Nat) :
    List String → Except SyncError (List String × List String)
  | [] => .ok ([], [])
  | rule :: rest =>
    match repo_exists remote rule with
    | .error e => .error e
    | .ok false =>
      match syncLoop remote fuel rest with
      | .error e => .error e
      | .ok (kept, removed) => .ok (kept, rule :: removed)
    | .ok true =>
      match repo_has_required_tag remote fuel rule with
      | .error e => .error e
      | .ok false =>
        match syncLoop remote fuel rest with
        | .error e => .error e
        | .ok (kept, removed) => .ok (kept, rule :: removed)
      | .ok true =>
        match syncLoop remote fuel rest with
        | .error e => .error e
        | .ok (kept, removed) => .ok (rule :: kept, removed)

/-- The per-entry verdict computed inline by the loop above: `repo_exists`
first, and only if it returns `True` is `repo_has_required_tag` consulted. -/
def entryVerdict (remote : Remote) (fuel : Nat) (rule : String) : Except SyncError Bool :=
  match repo_exists remote rule with
  | .error e => .error e
  | .ok false => .ok false
  | .ok true => repo_has_required_tag remote fuel rule

/-- The observable outcome of `sync_ruleset` on one file: its returned pair
`(changed, removed)` plus the file's content after the call (`finalContent`
models the `path.write_text` effect; the file is otherwise untouched). -/
structure SyncResult where
  changed : Bool
  removed : List String
  finalContent : String
  deriving DecidableEq

/-- `sync_ruleset(path, token, check_only)`.  `content` is the text of the
file; the script re-reads the file for `original`, which equals `content`
in this single-threaded run.  `changed = (updated != original)` and the new
content is persisted only when `changed and not check_only`. -/
def sync_ruleset (remote : Remote) (fuel : Nat) (content : String) (check_only : Bool) :
    Except SyncError SyncResult :=
  match syncLoop remote fuel (read_ruleset_file content).1 with
  | .error e => .error e
  | .ok (kept, removed) =>
    .ok { changed := write_ruleset_content kept != content,
          removed := removed,
          finalContent :=
            if (write_ruleset_content kept != content) && !check_only then
              write_ruleset_content kept
            else content }

/-! ## The driver -/

/-- The `for path in files:` loop of `main`: processes the discovered files
(name, content) in order, accumulating `changed_any` and each file's final
content.  A raised error aborts the loop; files not yet reached keep their
content (the current file too — validation fails before any write). -/
def mainLoop (remote : Remote) (fuel : Nat) (check_only : Bool) :
    List (String × String) → List (String × String) × Except SyncError Bool
  | [] => ([], .ok false)
  | (name, content) :: rest =>
    match sync_ruleset remote fuel content check_only with
    | .error e => ((name, content) :: rest, .error e)
    | .ok r =>
      ((name, r.finalContent) :: (mainLoop remote fuel check_only rest).1,
        match (mainLoop remote fuel check_only rest).2 with
        | .error e => .error e
        | .ok changedAny => .ok (r.changed || changedAny))

/-- `main(argv)` from the point where the sorted file list is known: the
final file contents and, if no error was raised, the exit status —
`1` when `check_only` and some file changed, else `0`. -/
def runMain (remote : Remote) (fuel : Nat) (files : List (String × String))
    (check_only : Bool) : List (String × String) × Except SyncError Nat :=
  ((mainLoop remote fuel check_only files).1,
    (mainLoop remote fuel check_only files).2.map
      (fun changedAny => if check_only && changedAny then 1 else 0))

/-! ## Auxiliary predicates used in claim statements -/

/-- A response of `_request_json` that the script treats as fatal in
`repo_exists`: an HTTP error with status other than 404, or an uncaught
transport/decoding failure. -/
def fatalResult : RemoteResult → Bool
  | .httpError status _ => status != 404
  | .netFailure => true
  | .success _ _ => false

/-- Is the decoded body a JSON list? -/
def jsonIsList : Json → Bool
  | .arr _ => true
  | _ => false

/-- Is the decoded body a JSON dict? -/
def jsonIsObj : Json → Bool
  | .obj _ => true
  | _ => false

/-- A tag object whose `name` is a string equal to `TAG_REQUIRED` after
stripping whitespace. -/
def tagItemMatches : Json → Bool
  | .obj fields =>
    match jsonGet fields "name" with
    | some (.str name) => pyStrip name == TAG_REQUIRED
    | _ => false
  | _ => false

/-- Every item of a tag page is a JSON dict. -/
def allObjs (items : List Json) : Bool :=
  items.all jsonIsObj

/-- Modelled from the spec (§4.1 Entry Normalizer), word for word: per line,
trim; reject if empty after trim, or starting with the comment marker, or
containing any whitespace, or starting with `.`, or starting with `_`; drop
if already seen; otherwise append and mark seen. -/
def specNormalize : List String → List String → List String
  | [], _ => []
  | raw :: rest, seen =>
    let s := pyStrip raw
    if s = "" then specNormalize rest seen
    else if strStartsWith s "#" then specNormalize rest seen
    else if s.toList.any pyIsSpace then specNormalize rest seen
    else if strStartsWith s "." then specNormalize rest seen
    else if strStartsWith s "_" then specNormalize rest seen
    else if s ∈ seen then specNormalize rest seen
    else s :: specNormalize rest (s :: seen)

/-! ## Helper instances and lemmas -/

instance {ε α : Type} [DecidableEq ε] [DecidableEq α] : DecidableEq (Except ε α) := fun a b =>
  match a, b with
  | .error e, .error e' =>
    if h : e = e' then .isTrue (by rw [h]) else .isFalse (by simp [h])
  | .error _, .ok _ => .isFalse (by simp)
  | .ok _, .error _ => .isFalse (by simp)
  | .ok x, .ok y =>
    if h : x = y then .isTrue (by rw [h]) else .isFalse (by simp [h])

@[simp] theorem toList_mk (l : List Char) : (String.mk l).toList = l := rfl

@[simp] theorem mk_toList (s : String) : String.mk s.toList = s := rfl

theorem toList_append (a b : String) : (a ++ b).toList = a.toList ++ b.toList := rfl

theorem dropWhile_eq_self_of_all {p : Char → Bool} {l : List Char}
    (h : ∀ c ∈ l, p c = false) : l.dropWhile p = l := by
  cases l with
  | nil => rfl
  | cons a as =>
    have ha := h a (List.mem_cons_self a as)
    simp [List.dropWhile_cons, ha]

theorem pyStrip_eq_self {s : String} (h : ∀ c ∈ s.toList, pyIsSpace c = false) :
    pyStrip s = s := by
  unfold pyStrip
  rw [dropWhile_eq_self_of_all h,
    dropWhile_eq_self_of_all (fun c hc => h c (List.mem_reverse.mp hc)),
    List.reverse_reverse, mk_toList]

theorem any_false_of_mem {l : List Char} {c : Char}
    (h : l.any pyIsSpace = false) (hc : c ∈ l) : pyIsSpace c = false := by
  by_contra hfc
  have : l.any pyIsSpace = true := List.any_eq_true.mpr ⟨c, hc, by simpa using hfc⟩
  simp [this] at h

theorem normalize_some {raw s : String} (h : normalize_rule_name raw = some s) :
    s = pyStrip raw ∧ ((pyStrip raw == "") || strStartsWith (pyStrip raw) "#") = false ∧
      (pyStrip raw).toList.any pyIsSpace = false ∧
      (strStartsWith (pyStrip raw) "." || strStartsWith (pyStrip raw) "_") = false := by
  simp only [normalize_rule_name] at h
  split at h
  · exact absurd h (by simp)
  · split at h
    · exact absurd h (by simp)
    · split at h
      · exact absurd h (by simp)
      · exact ⟨(Option.some.injEq _ _ ▸ h.symm : _), by simp_all⟩

theorem normalize_clean {raw s : String} (h : normalize_rule_name raw = some s) :
    ∀ c ∈ s.toList, pyIsSpace c = false := by
  obtain ⟨hs, _, h2, _⟩ := normalize_some h
  subst hs
  exact fun c hc => any_false_of_mem h2 hc

theorem normalize_idem {raw s : String} (h : normalize_rule_name raw = some s) :
    normalize_rule_name s = some s := by
  have hclean := normalize_clean h
  obtain ⟨hs, h1, h2, h3⟩ := normalize_some h
  subst hs
  unfold normalize_rule_name
  rw [pyStrip_eq_self hclean]
  simp only [h1, h2, h3, if_false, Bool.false_eq_true]

theorem splitlinesGo_lf (rest acc : List Char) :
    splitlinesGo ('\n' :: rest) acc = String.mk acc.reverse :: splitlinesGo rest [] := rfl

theorem splitlinesGo_cons_ne {c : Char} (rest acc : List Char)
    (h1 : ¬c = '\r') (h2 : ¬c = '\n') :
    splitlinesGo (c :: rest) acc = splitlinesGo rest (c :: acc) := by
  rw [splitlinesGo.eq_def]
  split <;> simp_all

theorem splitlinesGo_clean_append {e : List Char} (rest acc : List Char)
    (h : ∀ c ∈ e, pyIsSpace c = false) :
    splitlinesGo (e ++ '\n' :: rest) acc
      = String.mk (acc.reverse ++ e) :: splitlinesGo rest [] := by
  induction e generalizing acc with
  | nil => simpa using splitlinesGo_lf rest acc
  | cons c cs ih =>
    have hc := h c (List.mem_cons_self c cs)
    have hcr : ¬c = '\r' := by intro hh; subst hh; simp [pyIsSpace] at hc
    have hcn : ¬c = '\n' := by intro hh; subst hh; simp [pyIsSpace] at hc
    rw [List.cons_append, splitlinesGo_cons_ne _ _ hcr hcn,
      ih (c :: acc) (fun c' hc' => h c' (List.mem_cons_of_mem c hc'))]
    simp [List.append_assoc]

theorem write_content_cons_toList (e : String) (rest : List String) :
    (write_ruleset_content (e :: rest)).toList
      = e.toList ++ '\n' :: (write_ruleset_content rest).toList := by
  cases rest with
  | nil => simp [write_ruleset_content, joinSep, toList_append]
  | cons r rs =>
    simp [write_ruleset_content, joinSep, toList_append, List.append_assoc]

theorem pySplitlines_write {l : List String}
    (h : ∀ e ∈ l, ∀ c ∈ e.toList, pyIsSpace c = false) :
    pySplitlines (write_ruleset_content l) = l := by
  induction l with
  | nil => rfl
  | cons e rest ih =>
    unfold pySplitlines
    rw [write_content_cons_toList,
      splitlinesGo_clean_append _ _ (h e (List.mem_cons_self e rest))]
    simpa using ih (fun e' he' => h e' (List.mem_cons_of_mem e he'))

theorem normalizeLines_mem (lines : List String) : ∀ (seen : List String) (n : String),
    n ∈ normalizeLines lines seen ↔
      ((∃ line ∈ lines, normalize_rule_name line = some n) ∧ ¬n ∈ seen) := by
  induction lines with
  | nil => intro seen n; simp [normalizeLines]
  | cons line rest ih =>
    intro seen n
    cases hl : normalize_rule_name line with
    | none =>
      simp only [normalizeLines, hl, ih, List.mem_cons]
      constructor
      · rintro ⟨⟨l, hm, he⟩, hs⟩
        exact ⟨⟨l, Or.inr hm, he⟩, hs⟩
      · rintro ⟨⟨l, hm | hm, he⟩, hs⟩
        · rw [hm, hl] at he; cases he
        · exact ⟨⟨l, hm, he⟩, hs⟩
    | some name =>
      by_cases hseen : name ∈ seen
      · simp only [normalizeLines, hl, if_pos hseen, ih, List.mem_cons]
        constructor
        · rintro ⟨⟨l, hm, he⟩, hs⟩
          exact ⟨⟨l, Or.inr hm, he⟩, hs⟩
        · rintro ⟨⟨l, hm | hm, he⟩, hs⟩
          · rw [hm, hl] at he
            injection he with he
            exact absurd (he ▸ hseen) hs
          · exact ⟨⟨l, hm, he⟩, hs⟩
      · simp only [normalizeLines, hl, if_neg hseen, List.mem_cons, ih]
        constructor
        · rintro (rfl | ⟨⟨l, hm, he⟩, hs⟩)
          · exact ⟨⟨line, Or.inl rfl, hl⟩, hseen⟩
          · exact ⟨⟨l, Or.inr hm, he⟩, fun hns => hs (Or.inr hns)⟩
        · rintro ⟨⟨l, hm | hm, he⟩, hs⟩
          · rw [hm, hl] at he
            injection he with he
            exact Or.inl he.symm
          · by_cases hn : n = name
            · exact Or.inl hn
            · refine Or.inr ⟨⟨l, hm, he⟩, ?_⟩
              simp only [List.mem_cons, hn, false_or]
              exact hs

theorem normalizeLines_canonical {lines seen : List String} {n : String}
    (h : n ∈ normalizeLines lines seen) : normalize_rule_name n = some n := by
  obtain ⟨⟨l, _, he⟩, _⟩ := (normalizeLines_mem lines seen n).mp h
  exact normalize_idem he

theorem normalizeLines_nodup (lines : List String) :
    ∀ seen : List String, (normalizeLines lines seen).Nodup ∧
      ∀ n ∈ normalizeLines lines seen, ¬n ∈ seen := by
  induction lines with
  | nil => intro seen; simp [normalizeLines]
  | cons line rest ih =>
    intro seen
    cases hl : normalize_rule_name line with
    | none => simpa [normalizeLines, hl] using ih seen
    | some name =>
      by_cases hseen : name ∈ seen
      · simpa [normalizeLines, hl, hseen] using ih seen
      · obtain ⟨ihn, ihs⟩ := ih (name :: seen)
        simp only [normalizeLines, hl, if_neg hseen]
        refine ⟨List.nodup_cons.mpr ⟨fun hmem => (ihs name hmem) (List.mem_cons_self _ _), ihn⟩, ?_⟩
        intro n hn
        rcases List.mem_cons.mp hn with rfl | hn'
        · exact hseen
        · exact fun hns => ihs n hn' (List.mem_cons_of_mem _ hns)

theorem normalizeLines_id {l : List String} :
    ∀ seen : List String, (∀ e ∈ l, normalize_rule_name e = some e) → l.Nodup →
      (∀ e ∈ l, ¬e ∈ seen) → normalizeLines l seen = l := by
  induction l with
  | nil => intro seen _ _ _; rfl
  | cons e rest ih =>
    intro seen hcan hnd hseen
    have he : normalize_rule_name e = some e := hcan e (List.mem_cons_self _ _)
    have hes : ¬e ∈ seen := hseen e (List.mem_cons_self _ _)
    simp only [normalizeLines, he, if_neg hes]
    refine congrArg (e :: ·) (ih (e :: seen) (fun x hx => hcan x (List.mem_cons_of_mem _ hx))
      (List.nodup_cons.mp hnd).2 ?_)
    intro x hx hxs
    rcases List.mem_cons.mp hxs with rfl | hxs'
    · exact (List.nodup_cons.mp hnd).1 hx
    · exact hseen x (List.mem_cons_of_mem _ hx) hxs'

theorem syncLoop_sublists {remote : Remote} {fuel : Nat} :
    ∀ {rules kept removed : List String},
      syncLoop remote fuel rules = .ok (kept, removed) →
      kept.Sublist rules ∧ removed.Sublist rules := by
  intro rules
  induction rules with
  | nil =>
    intro kept removed h
    simp only [syncLoop, Except.ok.injEq, Prod.mk.injEq] at h
    obtain ⟨rfl, rfl⟩ := h
    exact ⟨List.Sublist.refl _, List.Sublist.refl _⟩
  | cons rule rest ih =>
    intro kept removed h
    simp only [syncLoop] at h
    split at h
    · cases h
    · split at h
      · cases h
      · rename_i kept' removed' heq
        simp only [Except.ok.injEq, Prod.mk.injEq] at h
        obtain ⟨rfl, rfl⟩ := h
        obtain ⟨hks, hrs⟩ := ih heq
        exact ⟨hks.cons _, hrs.cons₂ _⟩
    · split at h
      · cases h
      · split at h
        · cases h
        · rename_i kept' removed' heq
          simp only [Except.ok.injEq, Prod.mk.injEq] at h
          obtain ⟨rfl, rfl⟩ := h
          obtain ⟨hks, hrs⟩ := ih heq
          exact ⟨hks.cons _, hrs.cons₂ _⟩
      · split at h
        · cases h
        · rename_i kept' removed' heq
          simp only [Except.ok.injEq, Prod.mk.injEq] at h
          obtain ⟨rfl, rfl⟩ := h
          obtain ⟨hks, hrs⟩ := ih heq
          exact ⟨hks.cons₂ _, hrs.cons _⟩

theorem syncLoop_mem_kept {remote : Remote} {fuel : Nat} :
    ∀ {rules kept removed : List String},
      syncLoop remote fuel rules = .ok (kept, removed) →
      ∀ r ∈ kept, repo_exists remote r = .ok true ∧
        repo_has_required_tag remote fuel r = .ok true := by
  intro rules
  induction rules with
  | nil =>
    intro kept removed h
    simp only [syncLoop, Except.ok.injEq, Prod.mk.injEq] at h
    obtain ⟨rfl, rfl⟩ := h
    intro r hr
    cases hr
  | cons rule rest ih =>
    intro kept removed h
    simp only [syncLoop] at h
    split at h
    · cases h
    · split at h
      · cases h
      · rename_i kept' removed' heq
        simp only [Except.ok.injEq, Prod.mk.injEq] at h
        obtain ⟨rfl, rfl⟩ := h
        exact ih heq
    · rename_i hex
      split at h
      · cases h
      · split at h
        · cases h
        · rename_i kept' removed' heq
          simp only [Except.ok.injEq, Prod.mk.injEq] at h
          obtain ⟨rfl, rfl⟩ := h
          exact ih heq
      · rename_i htag
        split at h
        · cases h
        · rename_i kept' removed' heq
          simp only [Except.ok.injEq, Prod.mk.injEq] at h
          obtain ⟨rfl, rfl⟩ := h
          intro r hr
          rcases List.mem_cons.mp hr with rfl | hr'
          · exact ⟨hex, htag⟩
          · exact ih heq r hr'

theorem syncLoop_mem_removed {remote : Remote} {fuel : Nat} :
    ∀ {rules kept removed : List String},
      syncLoop remote fuel rules = .ok (kept, removed) →
      ∀ r ∈ removed, repo_exists remote r = .ok false ∨
        repo_has_required_tag remote fuel r = .ok false := by
  intro rules
  induction rules with
  | nil =>
    intro kept removed h
    simp only [syncLoop, Except.ok.injEq, Prod.mk.injEq] at h
    obtain ⟨rfl, rfl⟩ := h
    intro r hr
    cases hr
  | cons rule rest ih =>
    intro kept removed h
    simp only [syncLoop] at h
    split at h
    · cases h
    · rename_i hex
      split at h
      · cases h
      · rename_i kept' removed' heq
        simp only [Except.ok.injEq, Prod.mk.injEq] at h
        obtain ⟨rfl, rfl⟩ := h
        intro r hr
        rcases List.mem_cons.mp hr with rfl | hr'
        · exact Or.inl hex
        · exact ih heq r hr'
    · split at h
      · cases h
      · rename_i htag
        split at h
        · cases h
        · rename_i kept' removed' heq
          simp only [Except.ok.injEq, Prod.mk.injEq] at h
          obtain ⟨rfl, rfl⟩ := h
          intro r hr
          rcases List.mem_cons.mp hr with rfl | hr'
          · exact Or.inr htag
          · exact ih heq r hr'
      · split at h
        · cases h
        · rename_i kept' removed' heq
          simp only [Except.ok.injEq, Prod.mk.injEq] at h
          obtain ⟨rfl, rfl⟩ := h
          exact ih heq

theorem syncLoop_all_ok {remote : Remote} {fuel : Nat} :
    ∀ {rules : List String},
      (∀ r ∈ rules, repo_exists remote r = .ok true ∧
        repo_has_required_tag remote fuel r = .ok true) →
      syncLoop remote fuel rules = .ok (rules, []) := by
  intro rules
  induction rules with
  | nil => intro _; rfl
  | cons rule rest ih =>
    intro h
    obtain ⟨h1, h2⟩ := h rule (List.mem_cons_self _ _)
    simp [syncLoop, h1, h2, ih (fun r hr => h r (List.mem_cons_of_mem _ hr))]

theorem syncLoop_partition_aux {remote : Remote} {fuel : Nat} :
    ∀ {rules kept removed : List String},
      syncLoop remote fuel rules = .ok (kept, removed) →
      kept.length + removed.length = rules.length ∧
        ∀ x, x ∈ rules ↔ (x ∈ kept ∨ x ∈ removed) := by
  intro rules
  induction rules with
  | nil =>
    intro kept removed h
    simp only [syncLoop, Except.ok.injEq, Prod.mk.injEq] at h
    obtain ⟨rfl, rfl⟩ := h
    simp
  | cons rule rest ih =>
    intro kept removed h
    simp only [syncLoop] at h
    split at h
    · cases h
    · split at h
      · cases h
      · rename_i kept' removed' heq
        simp only [Except.ok.injEq, Prod.mk.injEq] at h
        obtain ⟨rfl, rfl⟩ := h
        obtain ⟨ihl, ihm⟩ := ih heq
        constructor
        · simp only [List.length_cons]
          omega
        · intro x
          simp only [List.mem_cons, ihm x]
          tauto
    · split at h
      · cases h
      · split at h
        · cases h
        · rename_i kept' removed' heq
          simp only [Except.ok.injEq, Prod.mk.injEq] at h
          obtain ⟨rfl, rfl⟩ := h
          obtain ⟨ihl, ihm⟩ := ih heq
          constructor
          · simp only [List.length_cons]
            omega
          · intro x
            simp only [List.mem_cons, ihm x]
            tauto
      · split at h
        · cases h
        · rename_i kept' removed' heq
          simp only [Except.ok.injEq, Prod.mk.injEq] at h
          obtain ⟨rfl, rfl⟩ := h
          obtain ⟨ihl, ihm⟩ := ih heq
          constructor
          · simp only [List.length_cons]
            omega
          · intro x
            simp only [List.mem_cons, ihm x]
            tauto

theorem sync_ruleset_of_loop {remote : Remote} {fuel : Nat} {content : String}
    {check_only : Bool} {kept removed : List String}
    (h : syncLoop remote fuel (read_ruleset_file content).1 = .ok (kept, removed)) :
    sync_ruleset remote fuel content check_only =
      .ok { changed := write_ruleset_content kept != content,
            removed := removed,
            finalContent :=
              if (write_ruleset_content kept != content) && !check_only then
                write_ruleset_content kept
              else content } := by
  simp only [sync_ruleset, h]

theorem sync_ruleset_inv {remote : Remote} {fuel : Nat} {content : String}
    {check_only : Bool} {r : SyncResult}
    (h : sync_ruleset remote fuel content check_only = .ok r) :
    ∃ kept removed,
      syncLoop remote fuel (read_ruleset_file content).1 = .ok (kept, removed) ∧
      r = { changed := write_ruleset_content kept != content,
            removed := removed,
            finalContent :=
              if (write_ruleset_content kept != content) && !check_only then
                write_ruleset_content kept
              else content } := by
  simp only [sync_ruleset] at h
  split at h
  · cases h
  · rename_i kept removed heq
    simp only [Except.ok.injEq] at h
    exact ⟨kept, removed, heq, h.symm⟩

theorem sync_apply_final {remote : Remote} {fuel : Nat} {content : String} {r : SyncResult}
    (h : sync_ruleset remote fuel content false = .ok r) :
    ∃ kept removed,
      syncLoop remote fuel (read_ruleset_file content).1 = .ok (kept, removed) ∧
      r.removed = removed ∧ r.changed = (write_ruleset_content kept != content) ∧
      r.finalContent = write_ruleset_content kept := by
  obtain ⟨kept, removed, heq, hr⟩ := sync_ruleset_inv h
  subst hr
  refine ⟨kept, removed, heq, rfl, rfl, ?_⟩
  by_cases hch : write_ruleset_content kept = content
  · simp [hch]
  · simp [hch]

theorem sync_check_final {remote : Remote} {fuel : Nat} {content : String} {r : SyncResult}
    (h : sync_ruleset remote fuel content true = .ok r) : r.finalContent = content := by
  obtain ⟨kept, removed, heq, hr⟩ := sync_ruleset_inv h
  subst hr
  simp

theorem mainLoop_check_fst {remote : Remote} {fuel : Nat} :
    ∀ files : List (String × String), (mainLoop remote fuel true files).1 = files := by
  intro files
  induction files with
  | nil => rfl
  | cons f rest ih =>
    obtain ⟨name, content⟩ := f
    simp only [mainLoop]
    split
    · rfl
    · rename_i r heq
      simp [sync_check_final heq, ih]

theorem mainLoop_changed {remote : Remote} {fuel : Nat} {check_only : Bool} :
    ∀ {files : List (String × String)} {c : Bool},
      (mainLoop remote fuel check_only files).2 = .ok c →
      (c = true ↔ ∃ f ∈ files, ∃ r, sync_ruleset remote fuel f.2 check_only = .ok r ∧
        r.changed = true) := by
  intro files
  induction files with
  | nil =>
    intro c h
    simp only [mainLoop] at h
    injection h with h
    subst h
    simp
  | cons f rest ih =>
    obtain ⟨name, content⟩ := f
    intro c h
    simp only [mainLoop] at h
    split at h
    · simp at h
    · rename_i r heqr
      dsimp only at h
      split at h
      · simp at h
      · rename_i c' heq2
        simp only [Except.ok.injEq] at h
        subst h
        rw [Bool.or_eq_true, ih heq2]
        constructor
        · rintro (hch | ⟨f, hf, rr, hrr, hc⟩)
          · exact ⟨(name, content), List.mem_cons_self _ _, r, heqr, hch⟩
          · exact ⟨f, List.mem_cons_of_mem _ hf, rr, hrr, hc⟩
        · rintro ⟨f, hf, rr, hrr, hc⟩
          rcases List.mem_cons.mp hf with rfl | hf'
          · dsimp only at hrr
            rw [heqr] at hrr
            injection hrr with hrr
            exact Or.inl (hrr ▸ hc)
          · exact Or.inr ⟨f, hf', rr, hrr, hc⟩

theorem entryVerdict_true_iff {remote : Remote} {fuel : Nat} {rule : String} :
    entryVerdict remote fuel rule = .ok true ↔
      (repo_exists remote rule = .ok true ∧
        repo_has_required_tag remote fuel rule = .ok true) := by
  simp only [entryVerdict]
  split
  · rename_i hex; simp [hex]
  · rename_i hex; simp [hex]
  · rename_i hex; simp [hex]

theorem entryVerdict_shortcircuit {remote : Remote} {fuel : Nat} {rule : String}
    (h : repo_exists remote rule = .ok false) :
    entryVerdict remote fuel rule = .ok false := by
  simp [entryVerdict, h]

theorem syncLoop_cons_verdict {remote : Remote} {fuel : Nat} {rule : String} {b : Bool}
    (hv : entryVerdict remote fuel rule = .ok b) (rest : List String) :
    syncLoop remote fuel (rule :: rest) =
      (syncLoop remote fuel rest).map
        (fun p => if b then (rule :: p.1, p.2) else (p.1, rule :: p.2)) := by
  simp only [entryVerdict] at hv
  split at hv
  · cases hv
  · rename_i hex
    injection hv with hv
    subst hv
    simp only [syncLoop, hex]
    cases hrest : syncLoop remote fuel rest with
    | error e => rfl
    | ok p => rfl
  · rename_i hex
    simp only [syncLoop, hex, hv]
    cases b with
    | false =>
      cases hrest : syncLoop remote fuel rest with
      | error e => rfl
      | ok p => rfl
    | true =>
      cases hrest : syncLoop remote fuel rest with
      | error e => rfl
      | ok p => rfl

theorem repo_exists_fatal {remote : Remote} {repo : String}
    (h : fatalResult (remote.fetch (repoMetaUrl repo)) = true) :
    ∃ e, repo_exists remote repo = .error e := by
  cases hf : remote.fetch (repoMetaUrl repo) with
  | success body hdrs => rw [hf] at h; simp [fatalResult] at h
  | httpError status body =>
    rw [hf] at h
    have hst : ¬status = 404 := by simpa [fatalResult] using h
    exact ⟨.apiError status (repoMetaUrl repo) body,
      by simp [repo_exists, requestJson, hf, hst]⟩
  | netFailure =>
    exact ⟨.netError, by simp [repo_exists, requestJson, hf]⟩

theorem repo_exists_notfound {remote : Remote} {repo : String} {body : String}
    (h : remote.fetch (repoMetaUrl repo) = .httpError 404 body) :
    repo_exists remote repo = .ok false := by
  simp [repo_exists, requestJson, h]

theorem repo_exists_nonObj {remote : Remote} {repo : String} {body : Json}
    {hdrs : List (String × String)}
    (hf : remote.fetch (repoMetaUrl repo) = .success body hdrs)
    (hb : jsonIsObj body = false) :
    repo_exists remote repo = .ok false := by
  cases body <;> simp_all [repo_exists, requestJson, jsonIsObj]

theorem tagScan_fatal {remote : Remote} {fuel : Nat} {url : String}
    (hurl : ¬url = "") (h : fatalResult (remote.fetch url) = true) :
    ∃ e, tagScan remote (fuel + 1) (some url) = .error e := by
  cases hf : remote.fetch url with
  | success body hdrs => rw [hf] at h; simp [fatalResult] at h
  | httpError status body =>
    exact ⟨.apiError status url body, by simp [tagScan, hurl, requestJson, hf]⟩
  | netFailure => exact ⟨.netError, by simp [tagScan, hurl, requestJson, hf]⟩

theorem tagScan_nonList {remote : Remote} {fuel : Nat} {url : String} {body : Json}
    {hdrs : List (String × String)}
    (hurl : ¬url = "") (hf : remote.fetch url = .success body hdrs)
    (hb : jsonIsList body = false) :
    ∃ e, tagScan remote (fuel + 1) (some url) = .error e := by
  refine ⟨.listExpected url, ?_⟩
  cases body <;> simp_all [tagScan, requestJson, jsonIsList, hurl]

theorem scanItems_spec : ∀ {items : List Json}, allObjs items = true →
    scanItems items = .ok (items.any tagItemMatches) := by
  intro items
  induction items with
  | nil => intro _; rfl
  | cons item rest ih =>
    intro h
    simp only [allObjs, List.all_cons, Bool.and_eq_true] at h
    obtain ⟨hitem, hrest⟩ := h
    have ihr := ih (by simpa [allObjs] using hrest)
    cases item with
    | obj fields =>
      simp only [scanItems, List.any_cons, tagItemMatches]
      cases hname : jsonGet fields "name" with
      | none => simp [ihr]
      | some v =>
        cases v with
        | str name =>
          by_cases hm : pyStrip name = TAG_REQUIRED
          · simp [hm]
          · have hm2 : (pyStrip name == TAG_REQUIRED) = false := by simpa using hm
            simp [hm, hm2, ihr]
        | null => simp [ihr]
        | bool b => simp [ihr]
        | num n => simp [ihr]
        | arr l => simp [ihr]
        | obj f2 => simp [ihr]
    | null => simp [jsonIsObj] at hitem
    | bool b => simp [jsonIsObj] at hitem
    | num n => simp [jsonIsObj] at hitem
    | str ss => simp [jsonIsObj] at hitem
    | arr l => simp [jsonIsObj] at hitem

theorem normalize_none {raw : String} (h : normalize_rule_name raw = none) :
    pyStrip raw = "" ∨ strStartsWith (pyStrip raw) "#" = true ∨
      (pyStrip raw).toList.any pyIsSpace = true ∨
      strStartsWith (pyStrip raw) "." = true ∨ strStartsWith (pyStrip raw) "_" = true := by
  simp only [normalize_rule_name] at h
  split at h
  · rename_i hc
    simp only [Bool.or_eq_true, beq_iff_eq] at hc
    tauto
  · split at h
    · rename_i hc
      tauto
    · split at h
      · rename_i hc
        simp only [Bool.or_eq_true] at hc
        tauto
      · cases h

theorem specNormalize_reject {line : String} {rest seen : List String}
    (h : pyStrip line = "" ∨ strStartsWith (pyStrip line) "#" = true ∨
      (pyStrip line).toList.any pyIsSpace = true ∨
      strStartsWith (pyStrip line) "." = true ∨ strStartsWith (pyStrip line) "_" = true) :
    specNormalize (line :: rest) seen = specNormalize rest seen := by
  simp only [specNormalize]
  by_cases h1 : pyStrip line = ""
  · rw [if_pos h1]
  · rw [if_neg h1]
    by_cases h2 : strStartsWith (pyStrip line) "#" = true
    · rw [if_pos h2]
    · rw [if_neg h2]
      by_cases h3 : (pyStrip line).toList.any pyIsSpace = true
      · rw [if_pos h3]
      · rw [if_neg h3]
        by_cases h4 : strStartsWith (pyStrip line) "." = true
        · rw [if_pos h4]
        · rw [if_neg h4]
          by_cases h5 : strStartsWith (pyStrip line) "_" = true
          · rw [if_pos h5]
          · tauto

theorem specNormalize_accept {line : String} {rest seen : List String} {name : String}
    (hl : normalize_rule_name line = some name) :
    specNormalize (line :: rest) seen =
      (if name ∈ seen then specNormalize rest seen
       else name :: specNormalize rest (name :: seen)) := by
  obtain ⟨hs, h1, h2, h3⟩ := normalize_some hl
  subst hs
  simp only [Bool.or_eq_false_iff] at h1 h3
  obtain ⟨h1a, h1b⟩ := h1
  obtain ⟨h3a, h3b⟩ := h3
  have h1a' : ¬pyStrip line = "" := by simpa using h1a
  simp only [specNormalize, if_neg h1a', h1b, h2, h3a, h3b, Bool.false_eq_true, if_false]

theorem normalizeLines_eq_spec : ∀ (lines seen : List String),
    normalizeLines lines seen = specNormalize lines seen := by
  intro lines
  induction lines with
  | nil => intro seen; rfl
  | cons line rest ih =>
    intro seen
    cases hl : normalize_rule_name line with
    | none =>
      rw [specNormalize_reject (normalize_none hl)]
      simp only [normalizeLines, hl]
      exact ih seen
    | some name =>
      rw [specNormalize_accept hl]
      simp only [normalizeLines, hl]
      by_cases hseen : name ∈ seen
      · simp [hseen, ih seen]
      · simp [hseen, ih (name :: seen)]

/-! ## Concrete remotes used by witnesses and the counterexample -/

/-- A remote for witnesses: repository `alpha` exists (not archived, not a
fork) and has tag `v1` on a single page; every other request is a 404. -/
def wRemote : Remote :=
  ⟨fun url =>
    if url = repoMetaUrl "alpha" then
      .success (.obj [("archived", .bool false), ("fork", .bool false)]) []
    else if url = repoTagsUrl "alpha" then
      .success (.arr [.obj [("name", .str "v1")]]) []
    else
      .httpError 404 "not found"⟩

/-- A remote whose every response is `403 Forbidden`. -/
def fatalRemote : Remote := ⟨fun _ => .httpError 403 "forbidden"⟩

/-- A remote whose every response decodes to a JSON string. -/
def strBodyRemote : Remote := ⟨fun _ => .success (.str "oops") []⟩

/-- A remote whose every response decodes to an empty JSON list. -/
def listBodyRemote : Remote := ⟨fun _ => .success (.arr []) []⟩

def page1Url : String := "https://api.github.com/page1"

def page2Url : String := "https://api.github.com/page2"

def page1Items : List Json := [.obj [("name", .str "v0")]]

def page2Items : List Json := [.obj [("name", .str " v1 ")]]

/-- A two-page tag listing: page 1 without the required tag, with a
`rel="next"` link to page 2; page 2 carries a `" v1 "` tag and no link. -/
def tagRemote : Remote :=
  ⟨fun url =>
    if url = page1Url then
      .success (.arr page1Items)
        [("Link", "<https://api.github.com/page2>; rel=\"next\"")]
    else if url = page2Url then
      .success (.arr page2Items) []
    else
      .httpError 404 "not found"⟩

/-! ## The claims -/

/-- Claim C1, counterexample: the claim says every remote error other than a
not-found signal — including a malformed or unexpected response payload — is
fatal and is never converted into an ineligible verdict.  But with a remote
whose metadata response is a 200 whose decoded payload is a JSON list rather
than a dict (an unexpected payload), `repo_exists` returns the ineligible
verdict `False` (line 86–87 of the script), the entry is removed, and a whole
apply-mode run completes without aborting. -/
theorem c1_counterexample :
    repo_exists listBodyRemote "somerepo" = .ok false ∧
    sync_ruleset listBodyRemote 1 "somerepo\n" false =
      .ok { changed := true, removed := ["somerepo"], finalContent := "" } :=
  ⟨rfl, rfl⟩

/-- Claim C1 (amended): a remote error signalled as an HTTP error with status
other than 404, or an uncaught transport/decoding failure, makes
`repo_exists` raise rather than return a verdict; the same holds for any
page fetched by the tag scan, and a tag-listing payload that decodes
successfully but is not a list also raises; a raised error propagates out of
the whole reconciliation.  Exception (forced by the counterexample): a
metadata payload that decodes to a non-dict value is converted to the
ineligible verdict `False` instead of aborting. -/
theorem c1_remote_errors_fatal (remote : Remote) (fuel : Nat) (repo url : String) :
    (fatalResult (remote.fetch (repoMetaUrl repo)) = true →
      ∃ e, repo_exists remote repo = .error e) ∧
    (¬url = "" → fatalResult (remote.fetch url) = true →
      ∃ e, tagScan remote (fuel + 1) (some url) = .error e) ∧
    (∀ body hdrs, ¬url = "" → remote.fetch url = .success body hdrs →
      jsonIsList body = false → ∃ e, tagScan remote (fuel + 1) (some url) = .error e) ∧
    (∀ e rules, syncLoop remote fuel rules = .error e →
      ∀ content check_only, (read_ruleset_file content).1 = rules →
        sync_ruleset remote fuel content check_only = .error e) ∧
    (∀ body hdrs, remote.fetch (repoMetaUrl repo) = .success body hdrs →
      jsonIsObj body = false → repo_exists remote repo = .ok false) := by
  refine ⟨fun h => repo_exists_fatal h,
    fun hu h => tagScan_fatal hu h,
    fun body hdrs hu hf hb => tagScan_nonList hu hf hb,
    fun e rules hloop content check_only hc => ?_,
    fun body hdrs hf hb => repo_exists_nonObj hf hb⟩
  simp only [sync_ruleset, hc, hloop]

/-- Claim C1 witness: concrete remotes exhibiting each amended case. -/
theorem c1_witness :
    (∃ e, repo_exists fatalRemote "r" = .error e) ∧
    (∃ e, tagScan fatalRemote 1 (some "u") = .error e) ∧
    (∃ e, tagScan strBodyRemote 1 (some "u") = .error e) ∧
    repo_exists listBodyRemote "r" = .ok false :=
  ⟨(c1_remote_errors_fatal fatalRemote 0 "r" "u").1 rfl,
    (c1_remote_errors_fatal fatalRemote 0 "r" "u").2.1 (by decide) rfl,
    (c1_remote_errors_fatal strBodyRemote 0 "r" "u").2.2.1 (.str "oops") []
      (by decide) rfl rfl,
    (c1_remote_errors_fatal listBodyRemote 0 "r" "u").2.2.2.2 (.arr []) [] rfl rfl⟩

/-- Claim C2: the per-entry verdict is the short-circuit conjunction of the
existence/status check and the tag-presence check: it is `True` iff both
checks return `True`; when `repo_exists` returns `False` the verdict is
`False` with no assumption whatsoever on the tag endpoint (the tag check is
never consulted); the reconciliation loop classifies an entry by exactly this
verdict; and on a metadata dict with boolean `archived` and `fork` fields the
existence check returns their negated conjunction. -/
theorem c2_eligibility (remote : Remote) (fuel : Nat) (rule : String) :
    (entryVerdict remote fuel rule = .ok true ↔
      (repo_exists remote rule = .ok true ∧
        repo_has_required_tag remote fuel rule = .ok true)) ∧
    (repo_exists remote rule = .ok false → entryVerdict remote fuel rule = .ok false) ∧
    (∀ (rest : List String) (b : Bool), entryVerdict remote fuel rule = .ok b →
      syncLoop remote fuel (rule :: rest) =
        (syncLoop remote fuel rest).map
          (fun p => if b then (rule :: p.1, p.2) else (p.1, rule :: p.2))) ∧
    (∀ fields hdrs a f, requestJson remote (repoMetaUrl rule) = .ok (.obj fields, hdrs) →
      jsonGet fields "archived" = some (.bool a) → jsonGet fields "fork" = some (.bool f) →
      repo_exists remote rule = .ok (!a && !f)) := by
  refine ⟨entryVerdict_true_iff, entryVerdict_shortcircuit,
    fun rest b hv => syncLoop_cons_verdict hv rest, ?_⟩
  intro fields hdrs a f hreq ha hf
  cases a <;> cases f <;> simp [repo_exists, hreq, ha, hf]

/-- Claim C2 witness: on the concrete remote, `alpha` is eligible, the
not-found `gone` is ineligible, and the metadata conjunction evaluates. -/
theorem c2_witness :
    entryVerdict wRemote 1 "alpha" = .ok true ∧
    entryVerdict wRemote 1 "gone" = .ok false ∧
    repo_exists wRemote "alpha" = .ok (!false && !false) :=
  ⟨(c2_eligibility wRemote 1 "alpha").1.mpr ⟨rfl, rfl⟩,
    (c2_eligibility wRemote 1 "gone").2.1 rfl,
    (c2_eligibility wRemote 1 "alpha").2.2.2
      [("archived", .bool false), ("fork", .bool false)] [] false false rfl rfl rfl⟩

/-- Claim C3: a 404 from the metadata endpoint makes `repo_exists` return the
ineligible verdict `False` — not an error — and the reconciliation loop
records the entry as removed and continues with the remaining entries. -/
theorem c3_notfound_ineligible (remote : Remote) (fuel : Nat) (rule : String)
    (rest : List String) (body : String)
    (h : remote.fetch (repoMetaUrl rule) = .httpError 404 body) :
    repo_exists remote rule = .ok false ∧
    syncLoop remote fuel (rule :: rest) =
      (syncLoop remote fuel rest).map (fun p => (p.1, rule :: p.2)) := by
  have hre := repo_exists_notfound h
  refine ⟨hre, ?_⟩
  have hcons := syncLoop_cons_verdict (@entryVerdict_shortcircuit remote fuel rule hre) rest
  simpa using hcons

/-- Claim C3 witness: the 404 repository `gone` on the concrete remote. -/
theorem c3_witness :
    repo_exists wRemote "gone" = .ok false ∧
    syncLoop wRemote 1 ["gone"] =
      (syncLoop wRemote 1 []).map (fun p => (p.1, "gone" :: p.2)) :=
  c3_notfound_ineligible wRemote 1 "gone" [] "not found" rfl

/-- Claim C4: on a well-formed page (a list of dicts), the item scan returns
`True` iff some item's `name`, after stripping whitespace, equals the
required tag; a matching page ends the scan with `True` with no constraint on
any further page (remaining pages are not fetched); a non-matching page
continues the scan at the `rel="next"` pointer parsed from the `link` header;
an absent pointer ends the scan with `False`; and `repo_has_required_tag` is
exactly this scan started at the tag-listing URL. -/
theorem c4_tag_pagination (remote : Remote) (fuel : Nat) (url : String)
    (items : List Json) (headers : List (String × String)) (repo : String)
    (hurl : ¬url = "")
    (hfetch : requestJson remote url = .ok (.arr items, headers))
    (hobjs : allObjs items = true) :
    scanItems items = .ok (items.any tagItemMatches) ∧
    (items.any tagItemMatches = true → tagScan remote (fuel + 1) (some url) = .ok true) ∧
    (items.any tagItemMatches = false →
      tagScan remote (fuel + 1) (some url) =
        tagScan remote fuel (parseNextUrl (headerGet headers "link"))) ∧
    tagScan remote fuel none = .ok false ∧
    repo_has_required_tag remote fuel repo = tagScan remote fuel (some (repoTagsUrl repo)) := by
  have hs := scanItems_spec hobjs
  refine ⟨hs, ?_, ?_, by cases fuel <;> rfl, rfl⟩
  · intro hany
    rw [hany] at hs
    simp [tagScan, hurl, hfetch, hs]
  · intro hany
    rw [hany] at hs
    simp [tagScan, hurl, hfetch, hs]

/-- Claim C4 witness: a two-page listing where only page 2 matches — page 1
steps to page 2 through the `rel="next"` pointer, and page 2 (whose tag name
needs stripping) ends the scan with `True`. -/
theorem c4_witness :
    tagScan tagRemote 2 (some page1Url) = tagScan tagRemote 1 (some page2Url) ∧
    tagScan tagRemote 2 (some page2Url) = .ok true := by
  constructor
  · have h := (c4_tag_pagination tagRemote 1 page1Url page1Items
      [("link", "<https://api.github.com/page2>; rel=\"next\"")] "alpha"
      (by decide) rfl rfl).2.2.1 rfl
    rw [h]
    rfl
  · exact (c4_tag_pagination tagRemote 1 page2Url page2Items [] "alpha"
      (by decide) rfl rfl).2.1 rfl

/-- Claim C5: the kept entries serialize as their newline-join with exactly
one trailing newline iff `kept` is non-empty (empty serializes to `""`); the
`changed` flag is the byte inequality of this serialization with the original
content; and the final content is the serialization exactly when `changed`
holds and check-only mode is off, the original content otherwise. -/
theorem c5_serialization (remote : Remote) (fuel : Nat) (content : String)
    (check_only : Bool) (kept removed : List String)
    (h : syncLoop remote fuel (read_ruleset_file content).1 = .ok (kept, removed)) :
    ∃ r, sync_ruleset remote fuel content check_only = .ok r ∧
      write_ruleset_content kept =
        (if kept = [] then "" else joinSep "\n" kept ++ "\n") ∧
      r.changed = (write_ruleset_content kept != content) ∧
      r.removed = removed ∧
      r.finalContent =
        (if r.changed = true ∧ check_only = false then write_ruleset_content kept
         else content) := by
  refine ⟨_, sync_ruleset_of_loop h, ?_, rfl, rfl, ?_⟩
  · cases kept with
    | nil => simp [write_ruleset_content, joinSep]
    | cons a l => simp [write_ruleset_content]
  · by_cases hch : (write_ruleset_content kept != content) = true <;>
      cases check_only <;> simp_all

/-- Claim C5 witness: a file whose entry `gone` is removed in apply mode. -/
theorem c5_witness :
    ∃ r, sync_ruleset wRemote 1 "alpha\ngone\n" false = .ok r ∧
      write_ruleset_content ["alpha"] =
        (if (["alpha"] : List String) = [] then ""
         else joinSep "\n" ["alpha"] ++ "\n") ∧
      r.changed = (write_ruleset_content ["alpha"] != "alpha\ngone\n") ∧
      r.removed = ["gone"] ∧
      r.finalContent =
        (if r.changed = true ∧ false = false then write_ruleset_content ["alpha"]
         else "alpha\ngone\n") :=
  c5_serialization wRemote 1 "alpha\ngone\n" false ["alpha"] ["gone"] rfl

/-- Claim C6: reconciling the content persisted by an apply-mode pass a
second time, against the same remote, yields `changed = false`, removes
nothing, and leaves the content untouched. -/
theorem c6_idempotent (remote : Remote) (fuel : Nat) (content : String) (r : SyncResult)
    (h : sync_ruleset remote fuel content false = .ok r) :
    ∃ r2, sync_ruleset remote fuel r.finalContent false = .ok r2 ∧
      r2.changed = false ∧ r2.removed = [] ∧ r2.finalContent = r.finalContent := by
  obtain ⟨kept, removed, hloop, hrem, hch, hfin⟩ := sync_apply_final h
  have hsub := (syncLoop_sublists hloop).1
  have hcanon : ∀ e ∈ kept, normalize_rule_name e = some e :=
    fun e he => normalizeLines_canonical (hsub.subset he)
  have hclean : ∀ e ∈ kept, ∀ c ∈ e.toList, pyIsSpace c = false :=
    fun e he => normalize_clean (hcanon e he)
  have hnd : kept.Nodup :=
    List.Nodup.sublist hsub (normalizeLines_nodup (pySplitlines content) []).1
  have hread : (read_ruleset_file r.finalContent).1 = kept := by
    rw [hfin]
    show normalizeLines (pySplitlines (write_ruleset_content kept)) [] = kept
    rw [pySplitlines_write hclean]
    exact normalizeLines_id [] hcanon hnd (fun e _ hmem => (List.not_mem_nil e) hmem)
  have hloop2 : syncLoop remote fuel (read_ruleset_file r.finalContent).1 = .ok (kept, []) := by
    rw [hread]
    exact syncLoop_all_ok (syncLoop_mem_kept hloop)
  refine ⟨_, sync_ruleset_of_loop hloop2, ?_, rfl, ?_⟩
  · simp [hfin]
  · simp [hfin]

/-- Claim C6 witness: re-running on the `"alpha\n"` persisted by the first
pass changes nothing. -/
theorem c6_witness :
    ∃ r2, sync_ruleset wRemote 1
        (SyncResult.finalContent ⟨true, ["gone"], "alpha\n"⟩) false = .ok r2 ∧
      r2.changed = false ∧ r2.removed = [] ∧
      r2.finalContent = SyncResult.finalContent ⟨true, ["gone"], "alpha\n"⟩ :=
  c6_idempotent wRemote 1 "alpha\ngone\n" ⟨true, ["gone"], "alpha\n"⟩ rfl

/-- Claim C7: reading a file normalizes its lines exactly as the spec's
per-line pipeline prescribes (trim; reject empty, comment, whitespace-bearing,
dot- or underscore-led candidates; drop names already seen, first occurrence
winning), with an always-empty `dropped` list, no possibility of an error
(the functions are total), a duplicate-free result, and membership exactly
for the lines some line of which normalizes to the entry; one line is
accepted iff none of the five reject conditions holds, in which case the
entry is the trimmed line. -/
theorem c7_normalization (content raw : String) :
    read_ruleset_file content = (specNormalize (pySplitlines content) [], []) ∧
    (read_ruleset_file content).1.Nodup ∧
    (∀ n, n ∈ (read_ruleset_file content).1 ↔
      ∃ line ∈ pySplitlines content, normalize_rule_name line = some n) ∧
    normalize_rule_name raw =
      (if pyStrip raw = "" ∨ strStartsWith (pyStrip raw) "#" = true ∨
          (pyStrip raw).toList.any pyIsSpace = true ∨
          strStartsWith (pyStrip raw) "." = true ∨ strStartsWith (pyStrip raw) "_" = true
        then none else some (pyStrip raw)) := by
  refine ⟨?_, (normalizeLines_nodup _ _).1, ?_, ?_⟩
  · show (normalizeLines (pySplitlines content) [], ([] : List String)) = _
    rw [normalizeLines_eq_spec]
  · intro n
    simpa using normalizeLines_mem (pySplitlines content) [] n
  · cases hn : normalize_rule_name raw with
    | none => rw [if_pos (normalize_none hn)]
    | some s =>
      obtain ⟨hs, h1, h2, h3⟩ := normalize_some hn
      subst hs
      simp only [Bool.or_eq_false_iff] at h1 h3
      obtain ⟨h1a, h1b⟩ := h1
      obtain ⟨h3a, h3b⟩ := h3
      have h1a' : ¬pyStrip raw = "" := by simpa using h1a
      have hnot : ¬(pyStrip raw = "" ∨ strStartsWith (pyStrip raw) "#" = true ∨
          (pyStrip raw).toList.any pyIsSpace = true ∨
          strStartsWith (pyStrip raw) "." = true ∨
          strStartsWith (pyStrip raw) "_" = true) := by
        rintro (hx | hx | hx | hx | hx)
        · exact h1a' hx
        · rw [h1b] at hx; cases hx
        · rw [h2] at hx; cases hx
        · rw [h3a] at hx; cases hx
        · rw [h3b] at hx; cases hx
      rw [if_neg hnot]

/-- Claim C7 witness: the spec's own filtering examples — `" a"` is trimmed
and kept, `"a b"`, `"#c"`, `".h"`, `"_x"` are rejected, and the duplicate
`"a"` is dropped. -/
theorem c7_witness : read_ruleset_file " a\na b\n#c\n.h\n_x\na\n" = (["a"], []) := by
  rw [(c7_normalization " a\na b\n#c\n.h\n_x\na\n" "x").1]
  rfl

/-- Claim C8: the kept and removed sequences are sublists of the normalized
input — they preserve the relative order of the entries, kept in original
order and removed in the order the removals were encountered (which is the
input order, as the loop processes entries in order). -/
theorem c8_order_preservation (remote : Remote) (fuel : Nat) (content : String)
    (kept removed : List String)
    (h : syncLoop remote fuel (read_ruleset_file content).1 = .ok (kept, removed)) :
    kept.Sublist (read_ruleset_file content).1 ∧
    removed.Sublist (read_ruleset_file content).1 :=
  syncLoop_sublists h

/-- Claim C8 witness. -/
theorem c8_witness :
    (["alpha"] : List String).Sublist (read_ruleset_file "alpha\ngone\n").1 ∧
    (["gone"] : List String).Sublist (read_ruleset_file "alpha\ngone\n").1 :=
  c8_order_preservation wRemote 1 "alpha\ngone\n" ["alpha"] ["gone"] rfl

/-- Claim C9: in check-only mode no file content is ever modified — the final
file states equal the originals, even for runs aborted by an error — and a
completed run exits with status 1 iff some file was detected as needing a
change (its reconciliation reported `changed = true`), with status 0
otherwise. -/
theorem c9_check_only (remote : Remote) (fuel : Nat) (files : List (String × String)) :
    (runMain remote fuel files true).1 = files ∧
    (∀ code, (runMain remote fuel files true).2 = .ok code →
      ((code = 1 ↔ ∃ f ∈ files, ∃ r, sync_ruleset remote fuel f.2 true = .ok r ∧
          r.changed = true) ∧
        (code = 0 ↔ ¬∃ f ∈ files, ∃ r, sync_ruleset remote fuel f.2 true = .ok r ∧
          r.changed = true))) := by
  refine ⟨mainLoop_check_fst files, ?_⟩
  intro code h
  simp only [runMain] at h
  cases hm : (mainLoop remote fuel true files).2 with
  | error e => rw [hm] at h; cases h
  | ok c =>
    rw [hm] at h
    simp only [Except.map] at h
    injection h with h
    have hiff := mainLoop_changed hm
    cases c with
    | true =>
      simp only [Bool.and_true, if_pos] at h
      subst h
      have hex := hiff.mp rfl
      exact ⟨iff_of_true rfl hex, iff_of_false (by decide) (fun hn => hn hex)⟩
    | false =>
      simp only [Bool.and_false, Bool.false_eq_true, if_false] at h
      subst h
      have hnex : ¬∃ f ∈ files, ∃ r, sync_ruleset remote fuel f.2 true = .ok r ∧
          r.changed = true := fun hx => by simpa using hiff.mpr hx
      exact ⟨iff_of_false (by decide) hnex, iff_of_true rfl hnex⟩

/-- Claim C9 witness: a check-only run on a file that would change keeps the
file byte-identical and the detected change is exhibited. -/
theorem c9_witness :
    (runMain wRemote 1 [("a.txt", "alpha\ngone\n")] true).1 =
      [("a.txt", "alpha\ngone\n")] ∧
    ∃ f ∈ [("a.txt", "alpha\ngone\n")], ∃ r,
      sync_ruleset wRemote 1 f.2 true = .ok r ∧ r.changed = true := by
  refine ⟨(c9_check_only wRemote 1 _).1, ?_⟩
  exact ((c9_check_only wRemote 1 [("a.txt", "alpha\ngone\n")]).2 1 rfl).1.mp rfl

/-- Claim C10: kept and removed partition the normalized input — their
lengths sum to its length, an entry is in the input iff it is in one of the
two lists, and no entry is in both. -/
theorem c10_partition (remote : Remote) (fuel : Nat) (content : String)
    (kept removed : List String)
    (h : syncLoop remote fuel (read_ruleset_file content).1 = .ok (kept, removed)) :
    kept.length + removed.length = (read_ruleset_file content).1.length ∧
    (∀ x, x ∈ (read_ruleset_file content).1 ↔ (x ∈ kept ∨ x ∈ removed)) ∧
    (∀ x, ¬(x ∈ kept ∧ x ∈ removed)) := by
  obtain ⟨hlen, hmem⟩ := syncLoop_partition_aux h
  refine ⟨hlen, hmem, ?_⟩
  rintro x ⟨hk, hr⟩
  obtain ⟨hex, htag⟩ := syncLoop_mem_kept h x hk
  rcases syncLoop_mem_removed h x hr with hex' | htag'
  · rw [hex] at hex'
    injection hex' with hb
    cases hb
  · rw [htag] at htag'
    injection htag' with hb
    cases hb

/-- Claim C10 witness. -/
theorem c10_witness :
    (["alpha"] : List String).length + (["gone"] : List String).length =
      (read_ruleset_file "alpha\ngone\n").1.length ∧
    (∀ x, x ∈ (read_ruleset_file "alpha\ngone\n").1 ↔
      (x ∈ (["alpha"] : List String) ∨ x ∈ (["gone"] : List String))) ∧
    (∀ x, ¬(x ∈ (["alpha"] : List String) ∧ x ∈ (["gone"] : List String))) :=
  c10_partition wRemote 1 "alpha\ngone\n" ["alpha"] ["gone"] rfl

end SyncRulesets
